import Mathlib

set_option maxHeartbeats 1000000

/-!
Shallow embedding of the FunnyJsonExplorer renderer
(src/FunnyJsonExplorer.py and src/newFunnyJsonExplorer.py).

The data model is the `Component` hierarchy (`Container` / `Leaf`), the two
drawers (`TreeDrawer._draw_tree`, `RectangleDrawer._draw_rectangle` together
with `RectangleDrawer._calculate_width`), the `JSONBuilder`-based `load` of
both explorer variants, and the icon factories.  Python strings are modelled
as Lean `String` (Python `len` counts code points, as does `String.length`),
Python `'─' * k` as `hBar k` (negative counts clamp to the empty string on
both sides), and Python `str.replace` on single-character patterns as a
character-wise map.
-/

/-- Component (src/FunnyJsonExplorer.py lines 5-32): a node is either a
`Container` carrying an ordered children list or a `Leaf`; both carry
`name`, `level`, `icon`. -/
inductive Component where
  | container (name : String) (level : Nat) (icon : String) (children : List Component)
  | leaf (name : String) (level : Nat) (icon : String)

namespace Component

/-- Field access `component.name`. -/
def nameOf : Component → String
  | .container n _ _ _ => n
  | .leaf n _ _ => n

/-- Field access `component.icon`. -/
def iconOf : Component → String
  | .container _ _ i _ => i
  | .leaf _ _ i => i

/-- Field access `component.level`. -/
def levelOf : Component → Nat
  | .container _ l _ _ => l
  | .leaf _ l _ => l

/-- Children of a container; a leaf has none. -/
def childrenOf : Component → List Component
  | .container _ _ _ cs => cs
  | .leaf _ _ _ => []

/-- Python `isinstance(component, Container)`. -/
def isContainerB : Component → Bool
  | .container _ _ _ _ => true
  | .leaf _ _ _ => false

/-- Python `is_last and (not isinstance(component, Container) or
len(component.children) == 0)` without the `is_last` conjunct: the node is a
Leaf or an empty Container (lines 103-104). -/
def isTerminalNode : Component → Bool
  | .leaf _ _ _ => true
  | .container _ _ _ cs => cs.isEmpty

end Component

mutual

/-- Pre-order listing of all nodes of a tree, the node itself first
(used to state spec-level "max over all nodes" properties). -/
def allNodes : Component → List Component
  | .leaf n l i => [.leaf n l i]
  | .container n l i cs => .container n l i cs :: allNodesList cs

/-- Pre-order listing concatenated over a children list. -/
def allNodesList : List Component → List Component
  | [] => []
  | c :: rest => allNodes c ++ allNodesList rest

end

mutual

/-- Pre-order listing of all nodes paired with their depth below the
argument root (the argument itself has the given depth `d`). -/
def nodesDepth : Component → Nat → List (Component × Nat)
  | .leaf n l i, d => [(.leaf n l i, d)]
  | .container n l i cs, d => (.container n l i cs, d) :: nodesDepthList cs (d + 1)

/-- Depth-annotated pre-order listing over a children list. -/
def nodesDepthList : List Component → Nat → List (Component × Nat)
  | [], _ => []
  | c :: rest, d => nodesDepth c d ++ nodesDepthList rest d

end

/-- Maximum of a list of naturals (`foldl max 0`). -/
def listMax (l : List Nat) : Nat := l.foldl max 0

mutual

/-- TreeDrawer (src/FunnyJsonExplorer.py lines 71-82).  `drawTree c pfx il`
returns the lines printed by `_draw_tree(component=c, prefix=pfx,
is_last=il)`: one line `{prefix}{connector} {icon} {name}` for the node,
then the children's lines with the extended prefix.  `TreeDrawer.draw(root)`
is `drawTree root "" true` (defaults `prefix=''`, `is_last=True`). -/
def drawTree (c : Component) (pfx : String) (isLast : Bool) : List String :=
  let connector := if isLast then "└─" else "├─"
  let line := pfx ++ connector ++ " " ++ c.iconOf ++ " " ++ c.nameOf
  match c with
  | .leaf _ _ _ => [line]
  | .container _ _ _ cs =>
      line :: drawTreeChildren cs (pfx ++ (if isLast then "   " else "│  "))

/-- Loop `for i, child in enumerate(children)` of `_draw_tree` (line 80-82):
each child is drawn with `is_last = (i == len(children) - 1)`. -/
def drawTreeChildren (cs : List Component) (pfx : String) : List String :=
  match cs with
  | [] => []
  | c :: rest => drawTree c pfx rest.isEmpty ++ drawTreeChildren rest pfx

end

mutual

/-- RectangleDrawer._calculate_width (lines 92-97): start from
`len(icon + name) + 2`, fold `max` over the recursive widths of the
children, and add 10 to the result — note the 10 is added on EVERY
recursive call, not once globally. -/
def calculateWidth : Component → Nat
  | .leaf n _ i => (i ++ n).length + 2 + 10
  | .container n _ i cs => calcWidthFold cs ((i ++ n).length + 2) + 10

/-- Loop `for child in children: max_width = max(max_width, ...)` of
`_calculate_width` (lines 95-96), accumulator threaded left to right. -/
def calcWidthFold : List Component → Nat → Nat
  | [], acc => acc
  | c :: rest, acc => calcWidthFold rest (max acc (calculateWidth c))

end

/-- Python `'─' * k` (with a nonnegative count; a negative Python count
yields the empty string, matched here by truncated `Nat` subtraction at the
call sites). -/
def hBar (k : Nat) : String := String.mk (List.replicate k '─')

/-- Python `s.replace(a, b)` for single-character `a` and `b`: a
character-wise map. -/
def replaceChar (a b : Char) (s : String) : String :=
  String.mk (s.data.map (fun c => if c = a then b else c))

/-- Line 107: `prefix.replace(' ', '─').replace('|', '─').replace('├', '┴')`,
the three replacements applied in source order. -/
def fixPfx (s : String) : String :=
  replaceChar '├' '┴' (replaceChar '|' '─' (replaceChar ' ' '─' s))

mutual

/-- RectangleDrawer._draw_rectangle (lines 99-123).  Returns the lines
printed by `_draw_rectangle(component, width, prefix, is_last, is_first)`.
Corner characters: `┐`/`┌` when `is_first`, overridden to `└`/`┘` when
`is_last` and the node is a Leaf or childless Container; in that case the
prefix is rewritten by `fixPfx` before printing.  The printed line uses the
shorter right-pad formula exactly when `component.name == "root"`. -/
def drawRectangle (c : Component) (width : Nat) (pfx : String)
    (isLast : Bool) (isFirst : Bool) : List String :=
  let lineEnd := if isFirst then "┐" else "┤"
  let lineBeg := if isFirst then "┌" else "|"
  let lineBeg := if isLast && c.isTerminalNode then "└" else lineBeg
  let lineEnd := if isLast && c.isTerminalNode then "┘" else lineEnd
  let pfx := if lineBeg = "└" then fixPfx pfx else pfx
  let line :=
    if c.nameOf = "root" then
      lineBeg ++ pfx ++ "─ " ++ c.nameOf ++ c.iconOf ++ " " ++
        hBar (width - c.nameOf.length - 3 - pfx.length) ++ lineEnd
    else
      lineBeg ++ pfx ++ "─ " ++ c.nameOf ++ c.iconOf ++ " " ++
        hBar (width - c.nameOf.length - 4 - pfx.length - c.iconOf.length) ++ lineEnd
  match c with
  | .leaf _ _ _ => [line]
  | .container name _ _ cs =>
      let childPfx :=
        if pfx = "" || pfx.data.getLastD ' ' != '├' then pfx ++ "  ├" else "  |" ++ pfx
      line :: drawRectChildren cs width childPfx isLast name

/-- Loop `for i, child in enumerate(children)` of `_draw_rectangle`
(lines 114-123).  The Python loop REASSIGNS the local `is_last`: every
non-final iteration sets it to `False`, the final iteration sets it to
`True` when the parent is named "root" and otherwise keeps the current
local value (`is_last = is_last`) — so the incoming flag reaches the last
child only when it is the sole child.  `cur` is that threaded local. -/
def drawRectChildren (cs : List Component) (width : Nat) (childPfx : String)
    (cur : Bool) (parentName : String) : List String :=
  match cs with
  | [] => []
  | [c] => drawRectangle c width childPfx (if parentName = "root" then true else cur) false
  | c :: rest =>
      drawRectangle c width childPfx false false ++
        drawRectChildren rest width childPfx false parentName

end

/-- RectangleDrawer.draw (lines 87-90): compute the width, then draw the
root with `prefix=''`, `is_last=False`, `is_first=True` (the trailing
`sroot = root` assignment is a dead local store). -/
def drawRect (root : Component) : List String :=
  drawRectangle root (calculateWidth root) "" false true

/-- Icon factories (lines 47-60): `create_container_icon` /
`create_leaf_icon` of `PokerFaceFactory` and `StarFactory`. -/
structure IconFactory where
  containerIcon : String
  leafIcon : String

/-- PokerFaceFactory: `♢` for containers, `♤` for leaves. -/
def pokerFaceFactory : IconFactory := ⟨"♢", "♤"⟩

/-- StarFactory: `★` for containers, `☆` for leaves. -/
def starFactory : IconFactory := ⟨"★", "☆"⟩

/-- Input values: a Python value is a mapping (`dict`, ordered key/value
pairs), `None`, or a non-mapping terminal such as a string.  Only `obj`
satisfies `isinstance(value, dict)`. -/
inductive JValue where
  | obj (entries : List (String × JValue))
  | null
  | str (s : String)

/-- Body of the `for key, value in structure.items()` loop of
`FunnyJsonExplorer.load` (lines 170-176): build the level-1 container for
`key` with the container icon; when the value is a dict, append one level-2
leaf per sub-key carrying the leaf icon (appends modelled by `foldl`);
other values contribute no leaves. -/
def buildEntry (fac : IconFactory) (kv : String × JValue) : Component :=
  match kv.2 with
  | .obj entries =>
      .container kv.1 1 fac.containerIcon
        (entries.foldl (fun acc e => acc ++ [Component.leaf e.1 2 fac.leafIcon]) [])
  | _ => .container kv.1 1 fac.containerIcon []

/-- FunnyJsonExplorer.load (src/FunnyJsonExplorer.py lines 168-177): a
`JSONBuilder` starts from `Container('root')` (level 0, icon `''`) and the
loop appends one built entry per top-level key, in insertion order. -/
def load (fac : IconFactory) (st : List (String × JValue)) : Component :=
  .container "root" 0 ""
    (st.foldl (fun acc kv => acc ++ [buildEntry fac kv]) [])

/-- Dictionary access `self.structure[key]` performed by `JSONIterator.next`
(src/newFunnyJsonExplorer.py lines 181-188): first-match lookup by key.
The default is never reached because the iterator only presents keys of the
structure itself. -/
def iterValue (st : List (String × JValue)) (k : String) : JValue :=
  (List.lookup k st).getD JValue.null

/-- FunnyJsonExplorer.load of src/newFunnyJsonExplorer.py (lines 196-206):
the `while iterator.has_next()` loop walks `list(structure.keys())` in
order, fetching each value through the iterator's dictionary access, and
appends built entries exactly as the other variant does. -/
def loadIter (fac : IconFactory) (st : List (String × JValue)) : Component :=
  .container "root" 0 ""
    ((st.map Prod.fst).foldl
      (fun acc k => acc ++ [buildEntry fac (k, iterValue st k)]) [])

/-- Renderer selection (`tree` / `rectangle`, the two `DrawerFactory`
subclasses). -/
inductive DrawerKind where
  | tree
  | rectangle

/-- Drawer.draw dispatch: `TreeDrawer.draw(root)` calls `_draw_tree(root)`
with defaults `prefix=''`, `is_last=True`; `RectangleDrawer.draw(root)` is
`drawRect`.  The drawer classes of the two source files are line-for-line
identical, so one model serves both. -/
def runDrawer : DrawerKind → Component → List String
  | .tree, root => drawTree root "" true
  | .rectangle, root => drawRect root

/-- FunnyJsonExplorer.show of src/FunnyJsonExplorer.py (lines 179-181):
build the tree with `load`, then draw it with the configured drawer. -/
def fjeShow (dk : DrawerKind) (fac : IconFactory) (st : List (String × JValue)) :
    List String :=
  runDrawer dk (load fac st)

/-- FunnyJsonExplorer.show of src/newFunnyJsonExplorer.py (lines 208-212):
wrap the structure in a `JSONIterator`, build the tree with the iterator
`load`, create the drawer per call (drawers are stateless), draw. -/
def newFjeShow (dk : DrawerKind) (fac : IconFactory) (st : List (String × JValue)) :
    List String :=
  runDrawer dk (loadIter fac st)

/-! ### Shape of the rectangle drawer's output -/

/-- Condition of lines 103-104: the node is flagged `is_last` and is a Leaf
or an empty Container, forcing the `└`/`┘` corners. -/
def rectBottomB (c : Component) (il : Bool) : Bool := il && c.isTerminalNode

/-- Resolved `line_beg` of `_draw_rectangle`. -/
def rectBeg (c : Component) (il ifr : Bool) : String :=
  if rectBottomB c il then "└" else if ifr then "┌" else "|"

/-- Resolved `line_end` of `_draw_rectangle`. -/
def rectEnd (c : Component) (il ifr : Bool) : String :=
  if rectBottomB c il then "┘" else if ifr then "┐" else "┤"

/-- Resolved per-line prefix: rewritten by `fixPfx` exactly in the
bottom-corner case. -/
def rectPfx (c : Component) (il : Bool) (p : String) : String :=
  if rectBottomB c il then fixPfx p else p

/-- Right-pad count of lines 109/111: the `"root"` name selects the shorter
reservation. -/
def rectFill (c : Component) (w pl : Nat) : Nat :=
  if c.nameOf = "root" then w - c.nameOf.length - 3 - pl
  else w - c.nameOf.length - 4 - pl - c.iconOf.length

/-- The full frame line printed for one node. -/
def rectLine (c : Component) (w : Nat) (p : String) (il ifr : Bool) : String :=
  rectBeg c il ifr ++ rectPfx c il p ++ "─ " ++ c.nameOf ++ c.iconOf ++ " " ++
    hBar (rectFill c w (rectPfx c il p).length) ++ rectEnd c il ifr

/-- Child prefix rule of line 115: append `  ├` unless the prefix already
ends in `├`, in which case prepend `  |`. -/
def mkChildPfx (p : String) : String :=
  if p = "" || p.data.getLastD ' ' != '├' then p ++ "  ├" else "  |" ++ p

/-- Simultaneous character substitution claimed for the bottom-corner
prefix rewrite: space and `|` become `─`, `├` becomes `┴`, all other
characters stay. -/
def replSpecChar (c : Char) : Char :=
  if c = ' ' then '─' else if c = '|' then '─' else if c = '├' then '┴' else c

/-- Frame width as the specification states it: 10 plus the maximum over
all nodes (root included, full pre-order walk) of
`len(icon) + len(name) + 2`. -/
def specFrameWidth (c : Component) : Nat :=
  10 + listMax ((allNodes c).map fun nd => nd.iconOf.length + nd.nameOf.length + 2)

mutual

/-- No node of the tree is named `"root"` (used to isolate the renderer's
special treatment of that name). -/
def noRootB : Component → Bool
  | .leaf n _ _ => n != "root"
  | .container n _ _ cs => n != "root" && noRootBL cs

/-- List version of `noRootB`. -/
def noRootBL : List Component → Bool
  | [] => true
  | c :: rest => noRootB c && noRootBL rest

end

/-- No top-level key and no sub-key of the input structure equals
`"root"`. -/
def noRootKeys (st : List (String × JValue)) : Bool :=
  st.all fun kv =>
    kv.1 != "root" &&
      (match kv.2 with
       | .obj es => es.all fun e => e.1 != "root"
       | _ => true)

/-- End-to-end example input of the specification:
`{"oranges": {"mandarin": None}, "apples": {"gala": None}}`. -/
def stFruit : List (String × JValue) :=
  [("oranges", .obj [("mandarin", .null)]), ("apples", .obj [("gala", .null)])]

/-- Builder scope-limit example of the specification:
`{"a": {"x": None}, "b": "not-a-mapping"}`. -/
def stMixed : List (String × JValue) :=
  [("a", .obj [("x", JValue.null)]), ("b", .str "not-a-mapping")]

/-- Small two-level input used to separate the two width formulas. -/
def stSmall : List (String × JValue) :=
  [("a", .obj [("x", JValue.null)])]

/-! ### General helper lemmas -/

/-- Appending singletons in a left fold builds the mapped list: the shape of
every `builder.add` loop in the source. -/
theorem foldl_append_map {α β : Type} (f : α → β) (l : List α) (acc : List β) :
    l.foldl (fun a x => a ++ [f x]) acc = acc ++ l.map f := by
  induction l generalizing acc with
  | nil => simp
  | cons x xs ih => simp [ih]

/-- Closed form of `buildEntry` on a mapping value. -/
theorem buildEntry_obj (fac : IconFactory) (k : String) (es : List (String × JValue)) :
    buildEntry fac (k, .obj es) =
      .container k 1 fac.containerIcon (es.map fun e => .leaf e.1 2 fac.leafIcon) := by
  simp [buildEntry, foldl_append_map]

/-- Closed form of `load`: the root container holds one built entry per
top-level key, in order. -/
theorem load_eq (fac : IconFactory) (st : List (String × JValue)) :
    load fac st = .container "root" 0 "" (st.map (buildEntry fac)) := by
  simp [load, foldl_append_map]

theorem listMax_nil : listMax [] = 0 := rfl

/-- Folding `max` from an arbitrary seed. -/
theorem foldl_max_eq (l : List Nat) (a : Nat) : l.foldl max a = max a (listMax l) := by
  induction l generalizing a with
  | nil => simp [listMax]
  | cons x xs ih =>
      simp only [List.foldl_cons, listMax] at *
      rw [ih (max a x), ih (max 0 x)]
      omega

theorem listMax_cons (x : Nat) (l : List Nat) : listMax (x :: l) = max x (listMax l) := by
  show (x :: l).foldl max 0 = max x (listMax l)
  rw [List.foldl_cons, foldl_max_eq]
  omega

theorem listMax_append (l₁ l₂ : List Nat) :
    listMax (l₁ ++ l₂) = max (listMax l₁) (listMax l₂) := by
  induction l₁ with
  | nil => simp [listMax_nil]
  | cons x xs ih => simp [listMax_cons, ih, Nat.max_assoc]

theorem le_listMax_of_mem {x : Nat} {l : List Nat} (h : x ∈ l) : x ≤ listMax l := by
  induction l with
  | nil => cases h
  | cons y ys ih =>
      rw [listMax_cons]
      rcases List.mem_cons.mp h with rfl | h'
      · exact Nat.le_max_left _ _
      · exact Nat.le_trans (ih h') (Nat.le_max_right _ _)

/-- Shifting every entry of a max-fold by a constant, together with one
shifted seed, shifts the overall maximum. -/
theorem maxShift (l : List Nat) (a k : Nat) :
    max (a + k) (listMax (l.map (· + k))) = max a (listMax l) + k := by
  induction l generalizing a with
  | nil => simp [listMax_nil]
  | cons x xs ih =>
      simp only [List.map_cons, listMax_cons]
      rw [← max_assoc]
      have h1 : max (a + k) (x + k) = max a x + k := by omega
      rw [h1, ih (max a x), max_assoc]

/-- Closed form of the `_calculate_width` accumulator loop. -/
theorem calcWidthFold_eq (cs : List Component) (acc : Nat) :
    calcWidthFold cs acc = max acc (listMax (cs.map calculateWidth)) := by
  induction cs generalizing acc with
  | nil => simp [calcWidthFold, listMax_nil]
  | cons c rest ih =>
      simp only [calcWidthFold, List.map_cons, listMax_cons]
      rw [ih, Nat.max_assoc]

/-- Every child's width, plus the per-level margin of 10, bounds the
parent's width. -/
theorem calculateWidth_child_le {c : Component} {cs : List Component}
    (hc : c ∈ cs) (n : String) (l : Nat) (i : String) :
    calculateWidth c + 10 ≤ calculateWidth (.container n l i cs) := by
  simp only [calculateWidth, calcWidthFold_eq]
  have := le_listMax_of_mem (List.mem_map_of_mem calculateWidth hc)
  omega

/-- The label of the node itself, plus the margin of 10, bounds its width. -/
theorem calculateWidth_self_le (c : Component) :
    c.iconOf.length + c.nameOf.length + 2 + 10 ≤ calculateWidth c := by
  cases c with
  | leaf n l i => simp [calculateWidth, Component.iconOf, Component.nameOf, String.length_append]
  | container n l i cs =>
      simp only [calculateWidth, calcWidthFold_eq, Component.iconOf, Component.nameOf,
        String.length_append]
      omega

theorem drawRectangle_leaf (n : String) (l : Nat) (i : String) (w : Nat) (p : String)
    (il ifr : Bool) :
    drawRectangle (.leaf n l i) w p il ifr = [rectLine (.leaf n l i) w p il ifr] := by
  cases hb : il && (Component.leaf n l i).isTerminalNode <;> cases ifr <;>
    simp only [drawRectangle, rectLine, rectBeg, rectEnd, rectPfx, rectFill, rectBottomB, hb] <;>
    split <;> simp_all

theorem drawRectangle_container (n : String) (l : Nat) (i : String) (cs : List Component)
    (w : Nat) (p : String) (il ifr : Bool) :
    drawRectangle (.container n l i cs) w p il ifr =
      rectLine (.container n l i cs) w p il ifr ::
        drawRectChildren cs w (mkChildPfx (rectPfx (.container n l i cs) il p)) il n := by
  cases hb : il && (Component.container n l i cs).isTerminalNode <;> cases ifr <;>
    simp only [drawRectangle, rectLine, rectBeg, rectEnd, rectPfx, rectFill, rectBottomB,
      mkChildPfx, hb] <;>
    split <;> simp_all

/-! ### Length lemmas -/

theorem strLength_mk (l : List Char) : (String.mk l).length = l.length := rfl

theorem strLength_data (s : String) : s.data.length = s.length := rfl

theorem hBar_length (k : Nat) : (hBar k).length = k := by
  rw [hBar, strLength_mk, List.length_replicate]

theorem replaceChar_length (a b : Char) (s : String) :
    (replaceChar a b s).length = s.length := by
  rw [replaceChar, strLength_mk, List.length_map, strLength_data]

theorem fixPfx_length (s : String) : (fixPfx s).length = s.length := by
  rw [fixPfx, replaceChar_length, replaceChar_length, replaceChar_length]

theorem rectPfx_length (c : Component) (il : Bool) (p : String) :
    (rectPfx c il p).length = p.length := by
  rw [rectPfx]
  split
  · exact fixPfx_length p
  · rfl

theorem rectBeg_length (c : Component) (il ifr : Bool) :
    (rectBeg c il ifr).length = 1 := by
  rw [rectBeg]
  split
  · rfl
  · split <;> rfl

theorem rectEnd_length (c : Component) (il ifr : Bool) :
    (rectEnd c il ifr).length = 1 := by
  rw [rectEnd]
  split
  · rfl
  · split <;> rfl

theorem mkChildPfx_length (p : String) : (mkChildPfx p).length = p.length + 3 := by
  rw [mkChildPfx]
  have h1 : ("  ├" : String).length = 3 := rfl
  have h2 : ("  |" : String).length = 3 := rfl
  split
  · rw [String.length_append, h1]
  · rw [String.length_append, h2]
    omega

theorem rectLine_length (c : Component) (w : Nat) (p : String) (il ifr : Bool)
    (hn : c.nameOf ≠ "root")
    (hw : c.nameOf.length + c.iconOf.length + 4 + p.length ≤ w) :
    (rectLine c w p il ifr).length = w + 1 := by
  have h2 : ("─ " : String).length = 2 := rfl
  have h1 : (" " : String).length = 1 := rfl
  rw [rectLine, rectFill, if_neg hn]
  simp only [String.length_append, rectBeg_length, rectEnd_length, rectPfx_length,
    hBar_length, h1, h2]
  omega

theorem rectLine_length_root (c : Component) (w : Nat) (p : String) (il ifr : Bool)
    (hn : c.nameOf = "root")
    (hw : c.nameOf.length + 3 + p.length ≤ w) :
    (rectLine c w p il ifr).length = w + 2 + c.iconOf.length := by
  have h2 : ("─ " : String).length = 2 := rfl
  have h1 : (" " : String).length = 1 := rfl
  rw [rectLine, rectFill, if_pos hn]
  simp only [String.length_append, rectBeg_length, rectEnd_length, rectPfx_length,
    hBar_length, h1, h2]
  omega

/-! ### Structural lemmas for the drawers -/

/-- Induction over a component tree: to prove a property of every tree it
suffices to prove it of leaves and, for containers, assuming it of every
child. -/
theorem componentInd (P : Component → Prop)
    (hl : ∀ n l i, P (.leaf n l i))
    (hc : ∀ n l i cs, (∀ c ∈ cs, P c) → P (.container n l i cs)) :
    ∀ c, P c := fun c =>
  match c with
  | .leaf n l i => hl n l i
  | .container n l i cs => hc n l i cs (fun x hx => componentInd P hl hc x)
termination_by c => sizeOf c
decreasing_by
  simp only [Component.container.sizeOf_spec]
  have := List.sizeOf_lt_of_mem hx
  omega

theorem drawRectChildren_nil (w : Nat) (cp : String) (cur : Bool) (pn : String) :
    drawRectChildren [] w cp cur pn = [] := by
  simp [drawRectChildren]

theorem drawRectChildren_singleton (c : Component) (w : Nat) (cp : String) (cur : Bool)
    (pn : String) :
    drawRectChildren [c] w cp cur pn =
      drawRectangle c w cp (if pn = "root" then true else cur) false := by
  simp [drawRectChildren]

theorem drawRectChildren_cons_cons (a b : Component) (t : List Component) (w : Nat)
    (cp : String) (cur : Bool) (pn : String) :
    drawRectChildren (a :: b :: t) w cp cur pn =
      drawRectangle a w cp false false ++ drawRectChildren (b :: t) w cp false pn := by
  simp [drawRectChildren]

/-- Every line produced for a children list comes from drawing one of the
children with the shared child prefix and `is_first = false`. -/
theorem mem_drawRectChildren {ln : String} :
    ∀ (cs : List Component) (w : Nat) (cp : String) (cur : Bool) (pn : String),
      ln ∈ drawRectChildren cs w cp cur pn →
      ∃ c ∈ cs, ∃ b, ln ∈ drawRectangle c w cp b false := by
  intro cs
  induction cs with
  | nil => intro w cp cur pn h; rw [drawRectChildren_nil] at h; cases h
  | cons c rest ih =>
      intro w cp cur pn h
      cases rest with
      | nil =>
          rw [drawRectChildren_singleton] at h
          exact ⟨c, List.mem_singleton_self c, _, h⟩
      | cons c2 t =>
          rw [drawRectChildren_cons_cons] at h
          rcases List.mem_append.mp h with h1 | h2
          · exact ⟨c, List.mem_cons_self c _, false, h1⟩
          · rcases ih w cp false pn h2 with ⟨x, hx, b, hb⟩
            exact ⟨x, List.mem_cons_of_mem c hx, b, hb⟩

theorem noRootBL_mem {cs : List Component} (h : noRootBL cs = true) {c : Component}
    (hc : c ∈ cs) : noRootB c = true := by
  induction cs with
  | nil => cases hc
  | cons x rest ih =>
      simp only [noRootBL, Bool.and_eq_true] at h
      rcases List.mem_cons.mp hc with rfl | h'
      · exact h.1
      · exact ih h.2 h'

theorem noRootB_name {c : Component} (h : noRootB c = true) : c.nameOf ≠ "root" := by
  cases c with
  | leaf n l i =>
      simp only [noRootB, bne_iff_ne, ne_eq] at h
      simpa [Component.nameOf] using h
  | container n l i cs =>
      simp only [noRootB, Bool.and_eq_true, bne_iff_ne, ne_eq] at h
      simpa [Component.nameOf] using h.1

/-- Main length invariant of the rectangle drawer: as long as no node is
named "root" and the width leaves room for the deepest label (which the
width computed for the same tree always does), every emitted line has
exactly `width + 1` visible characters. -/
theorem rect_lines_length :
    ∀ c : Component, ∀ (w : Nat) (p : String) (il ifr : Bool),
      noRootB c = true → calculateWidth c + p.length ≤ w →
      ∀ ln ∈ drawRectangle c w p il ifr, ln.length = w + 1 := by
  intro c
  induction c using componentInd with
  | hl n l i =>
      intro w p il ifr hnr hw ln hln
      rw [drawRectangle_leaf] at hln
      rcases List.mem_singleton.mp hln with rfl
      have hcw : calculateWidth (.leaf n l i) = i.length + n.length + 12 := by
        simp [calculateWidth, String.length_append]
      refine rectLine_length _ w p il ifr (noRootB_name hnr) ?_
      simp only [Component.nameOf, Component.iconOf]
      omega
  | hc n l i cs ih =>
      intro w p il ifr hnr hw ln hln
      have hparts := noRootB_name hnr
      have hbl : noRootBL cs = true := by
        simp only [noRootB, Bool.and_eq_true] at hnr
        exact hnr.2
      have hself := calculateWidth_self_le (.container n l i cs)
      rw [drawRectangle_container] at hln
      rcases List.mem_cons.mp hln with rfl | hmem
      · refine rectLine_length _ w p il ifr hparts ?_
        simp only [Component.nameOf, Component.iconOf] at *
        omega
      · rcases mem_drawRectChildren _ _ _ _ _ hmem with ⟨c', hc', b, hb⟩
        have hlen : (mkChildPfx (rectPfx (.container n l i cs) il p)).length = p.length + 3 := by
          rw [mkChildPfx_length, rectPfx_length]
        have hcw := calculateWidth_child_le hc' n l i
        refine ih c' hc' w _ b false (noRootBL_mem hbl hc') ?_ ln hb
        rw [hlen]
        omega

theorem noRootBL_leaf_map (ic : String) (es : List (String × JValue)) :
    noRootBL (es.map fun e => Component.leaf e.1 2 ic) = es.all fun e => e.1 != "root" := by
  induction es with
  | nil => rfl
  | cons e rest ih => simp [noRootBL, noRootB, ih]

theorem noRootB_buildEntry (fac : IconFactory) (kv : String × JValue)
    (h1 : (kv.1 != "root") = true)
    (h2 : (match kv.2 with
           | JValue.obj es => es.all fun e => e.1 != "root"
           | _ => true) = true) :
    noRootB (buildEntry fac kv) = true := by
  obtain ⟨k, v⟩ := kv
  cases v with
  | obj es =>
      rw [buildEntry_obj]
      simp only [noRootB, Bool.and_eq_true, noRootBL_leaf_map]
      exact ⟨h1, h2⟩
  | null => simpa [buildEntry, noRootB, noRootBL] using h1
  | str s => simpa [buildEntry, noRootB, noRootBL] using h1

theorem noRootBL_load (fac : IconFactory) (st : List (String × JValue))
    (h : noRootKeys st = true) :
    noRootBL (st.map (buildEntry fac)) = true := by
  induction st with
  | nil => rfl
  | cons kv rest ih =>
      simp only [noRootKeys, List.all_cons, Bool.and_eq_true] at h
      simp only [List.map_cons, noRootBL, Bool.and_eq_true]
      refine ⟨noRootB_buildEntry fac kv h.1.1 h.1.2, ih ?_⟩
      simp only [noRootKeys]
      exact h.2

theorem allNodesList_leaf_map (ic : String) (es : List (String × JValue)) :
    allNodesList (es.map fun e => Component.leaf e.1 2 ic) =
      es.map fun e => Component.leaf e.1 2 ic := by
  induction es with
  | nil => rfl
  | cons e rest ih => simp [allNodesList, allNodes, ih]

theorem mem_allNodesList {x : Component} :
    ∀ {cs : List Component}, x ∈ allNodesList cs ↔ ∃ c ∈ cs, x ∈ allNodes c := by
  intro cs
  induction cs with
  | nil => simp [allNodesList]
  | cons c rest ih =>
      simp only [allNodesList, List.mem_append, ih, List.mem_cons]
      constructor
      · rintro (h | ⟨c', hc', hx⟩)
        · exact ⟨c, Or.inl rfl, h⟩
        · exact ⟨c', Or.inr hc', hx⟩
      · rintro ⟨c', rfl | hc', hx⟩
        · exact Or.inl hx
        · exact Or.inr ⟨c', hc', hx⟩

theorem icons_allNodes_buildEntry (fac : IconFactory) (kv : String × JValue) :
    ∀ x ∈ allNodes (buildEntry fac kv),
      (x.isContainerB = true → x.iconOf = fac.containerIcon) ∧
      (x.isContainerB = false → x.iconOf = fac.leafIcon) := by
  obtain ⟨k, v⟩ := kv
  cases v with
  | obj es =>
      rw [buildEntry_obj]
      intro x hx
      simp only [allNodes, allNodesList_leaf_map] at hx
      rcases List.mem_cons.mp hx with rfl | h
      · simp [Component.isContainerB, Component.iconOf]
      · rcases List.mem_map.mp h with ⟨e, _, rfl⟩
        simp [Component.isContainerB, Component.iconOf]
  | null =>
      intro x hx
      simp only [buildEntry, allNodes, allNodesList] at hx
      rcases List.mem_singleton.mp hx with rfl
      simp [Component.isContainerB, Component.iconOf]
  | str s =>
      intro x hx
      simp only [buildEntry, allNodes, allNodesList] at hx
      rcases List.mem_singleton.mp hx with rfl
      simp [Component.isContainerB, Component.iconOf]

/-! ### Claim theorems -/

/-- C1 (counterexample): on the two-level tree built from
`{"a": {"x": None}}` with star icons, `_calculate_width` returns 34 while
the specified `10 + max over all nodes of (len(icon)+len(name)+2)` is 16:
the code adds the 10-cell margin at every nesting level, not once. -/
theorem C1_counterexample :
    calculateWidth (load starFactory stSmall) ≠ specFrameWidth (load starFactory stSmall) := by
  decide

/-- C2 (counterexample): on the tree built from `{"a": {"x": None}}`, not
every rectangle line has exactly `width` visible characters — the computed
width is 34, the root line has 36 characters and the others 35. -/
theorem C2_counterexample :
    ¬ ∀ ln ∈ fjeShow .rectangle starFactory stSmall,
        ln.length = calculateWidth (load starFactory stSmall) := by
  decide

/-- C2 (amended): for every icon family and every structure none of whose
keys or sub-keys is the string "root", every rectangle line has exactly
`width + 1` visible characters except the root's own (first) line, which
has `width + 2` — not `width` as claimed. -/
theorem C2_line_widths (fac : IconFactory) (st : List (String × JValue))
    (h : noRootKeys st = true) :
    (fjeShow .rectangle fac st).head?.map String.length =
        some (calculateWidth (load fac st) + 2) ∧
    ∀ ln ∈ (fjeShow .rectangle fac st).tail,
      ln.length = calculateWidth (load fac st) + 1 := by
  have hshow : fjeShow .rectangle fac st =
      drawRectangle (load fac st) (calculateWidth (load fac st)) "" false true := rfl
  rw [hshow, load_eq]
  rw [drawRectangle_container]
  have hge := calculateWidth_self_le
    (Component.container "root" 0 "" (st.map (buildEntry fac)))
  have hroot4 : ("root" : String).length = 4 := rfl
  have hnil0 : ("" : String).length = 0 := rfl
  constructor
  · simp only [List.head?_cons, Option.map_some']
    congr 1
    rw [rectLine_length_root _ _ _ _ _ (by simp [Component.nameOf]) (by
      simp only [Component.nameOf, hroot4, hnil0]
      simp only [Component.nameOf, Component.iconOf, hroot4, hnil0] at hge
      omega)]
    simp [Component.iconOf]
  · intro ln hln
    simp only [List.tail_cons] at hln
    rcases mem_drawRectChildren _ _ _ _ _ hln with ⟨c', hc', b, hb⟩
    have hcw := calculateWidth_child_le hc' "root" 0 ""
    have hcp : (mkChildPfx (rectPfx
        (Component.container "root" 0 "" (st.map (buildEntry fac))) false "")).length = 3 := by
      rw [mkChildPfx_length, rectPfx_length, hnil0]
    refine rect_lines_length c' _ _ b false
      (noRootBL_mem (noRootBL_load fac st h) hc') ?_ ln hb
    rw [hcp]
    omega

/-- C2 (witness): the amended statement evaluated on `{"a": {"x": None}}`
with star icons. -/
theorem C2_line_widths_witness :
    noRootKeys stSmall = true ∧
      ((fjeShow .rectangle starFactory stSmall).head?.map String.length =
          some (calculateWidth (load starFactory stSmall) + 2) ∧
        ∀ ln ∈ (fjeShow .rectangle starFactory stSmall).tail,
          ln.length = calculateWidth (load starFactory stSmall) + 1) :=
  ⟨by decide, C2_line_widths starFactory stSmall (by decide)⟩

/-- C6: the builder produces a root Container with one level-1 Container
per top-level key in insertion order; dict values yield one level-2 Leaf
per sub-key, non-dict values yield no leaves and no error (the function is
total), and deeper nesting is never recursed into — witnessed in closed
form, and evaluated on `{"a": {"x": None}, "b": "not-a-mapping"}`. -/
theorem C6_builder_shape :
    (∀ (fac : IconFactory) (st : List (String × JValue)),
        load fac st =
          Component.container "root" 0 ""
            (st.map fun kv =>
              Component.container kv.1 1 fac.containerIcon
                (match kv.2 with
                 | JValue.obj es => es.map fun e => Component.leaf e.1 2 fac.leafIcon
                 | _ => []))) ∧
      load starFactory stMixed =
        Component.container "root" 0 ""
          [Component.container "a" 1 "★" [Component.leaf "x" 2 "☆"],
           Component.container "b" 1 "★" []] := by
  constructor
  · intro fac st
    rw [load_eq]
    congr 1
    apply List.map_congr_left
    intro kv _
    obtain ⟨k, v⟩ := kv
    cases v with
    | obj es => rw [buildEntry_obj]
    | null => rfl
    | str s => rfl
  · rfl

/-- C7 (counterexample): the synthetic root Container does NOT carry the
configured container glyph: built from `{"a": {"x": None}}` with the star
family, its icon is the empty string, not `★`. -/
theorem C7_counterexample :
    (load starFactory stSmall).iconOf ≠ starFactory.containerIcon := by
  decide

/-- C7 (amended): in every built tree the root's icon is the empty string,
while every other Container-variant node carries the configured family's
container glyph and every Leaf-variant node the family's leaf glyph. -/
theorem C7_icon_assignment (fac : IconFactory) (st : List (String × JValue)) :
    (load fac st).iconOf = "" ∧
      ∀ x ∈ (allNodes (load fac st)).tail,
        (x.isContainerB = true → x.iconOf = fac.containerIcon) ∧
        (x.isContainerB = false → x.iconOf = fac.leafIcon) := by
  rw [load_eq]
  constructor
  · rfl
  · intro x hx
    simp only [allNodes, List.tail_cons] at hx
    rcases mem_allNodesList.mp hx with ⟨c, hc, hxc⟩
    rcases List.mem_map.mp hc with ⟨kv, _, rfl⟩
    exact icons_allNodes_buildEntry fac kv x hxc

/-- C8: on `{"oranges": {"mandarin": None}, "apples": {"gala": None}}` with
star icons, the tree renderer emits exactly these five lines in this order:
root, oranges (★, connector `├─`), mandarin (☆), apples (★, connector
`└─`), gala (☆). -/
theorem C8_fruit_tree_output :
    fjeShow .tree starFactory stFruit =
      ["└─  root", "   ├─ ★ oranges", "   │  └─ ☆ mandarin", "   └─ ★ apples",
       "      └─ ☆ gala"] := rfl

theorem nodesDepthList_width (cs : List Component) (e : Nat)
    (ih : ∀ x ∈ cs, ∀ d, listMax ((nodesDepth x d).map fun p =>
        p.1.iconOf.length + p.1.nameOf.length + 2 + 10 * (p.2 + 1)) =
      calculateWidth x + 10 * d) :
    listMax ((nodesDepthList cs e).map fun p =>
        p.1.iconOf.length + p.1.nameOf.length + 2 + 10 * (p.2 + 1)) =
      listMax (cs.map fun x => calculateWidth x + 10 * e) := by
  induction cs with
  | nil => rfl
  | cons x rest ihl =>
      simp only [nodesDepthList, List.map_append, List.map_cons, listMax_append, listMax_cons]
      rw [ih x (List.mem_cons_self x rest) e,
        ihl (fun y hy => ih y (List.mem_cons_of_mem x hy))]

/-- Depth-weighted maximum formula for `_calculate_width`: the margin of 10
accumulates once per level. -/
theorem nodesDepth_width : ∀ c : Component, ∀ d : Nat,
    listMax ((nodesDepth c d).map fun p =>
        p.1.iconOf.length + p.1.nameOf.length + 2 + 10 * (p.2 + 1)) =
      calculateWidth c + 10 * d := by
  intro c
  induction c using componentInd with
  | hl n l i =>
      intro d
      simp only [nodesDepth, List.map_cons, List.map_nil, listMax_cons, listMax_nil,
        Component.iconOf, Component.nameOf, calculateWidth, String.length_append]
      omega
  | hc n l i cs ih =>
      intro d
      simp only [nodesDepth, List.map_cons, listMax_cons]
      rw [nodesDepthList_width cs (d + 1) ih]
      simp only [Component.iconOf, Component.nameOf]
      have hms := maxShift (cs.map calculateWidth) (i.length + n.length + 2) (10 * (d + 1))
      rw [List.map_map] at hms
      have hcomp : ((fun x => x + 10 * (d + 1)) ∘ calculateWidth) =
          (fun x => calculateWidth x + 10 * (d + 1)) := rfl
      rw [hcomp] at hms
      rw [hms]
      have hcw : calculateWidth (.container n l i cs) =
          max ((i ++ n).length + 2) (listMax (cs.map calculateWidth)) + 10 := by
        simp [calculateWidth, calcWidthFold_eq]
      have hlen : (i ++ n).length = i.length + n.length := String.length_append i n
      rw [hcw, hlen]
      omega

/-- C1 (amended): `_calculate_width` adds the 10-cell margin once per
nesting level, so the frame width equals the maximum over all nodes
(pre-order, root included) of `len(icon) + len(name) + 2 + 10*(depth+1)`,
not `10 + max over all nodes of (len(icon)+len(name)+2)`. -/
theorem C1_width_formula (c : Component) :
    calculateWidth c =
      listMax ((nodesDepth c 0).map fun p =>
        p.1.iconOf.length + p.1.nameOf.length + 2 + 10 * (p.2 + 1)) := by
  have h := nodesDepth_width c 0
  omega

theorem iterValue_cons_self (k : String) (v : JValue) (rest : List (String × JValue)) :
    iterValue ((k, v) :: rest) k = v := by
  simp [iterValue, List.lookup]

theorem iterValue_cons_ne (k k' : String) (v : JValue) (rest : List (String × JValue))
    (h : k' ≠ k) : iterValue ((k, v) :: rest) k' = iterValue rest k' := by
  have hb : (k' == k) = false := beq_eq_false_iff_ne.mpr h
  simp [iterValue, List.lookup, hb]

/-- With pairwise distinct keys (as a Python dict guarantees), walking the
key list and looking each key up in the dictionary rebuilds the original
entry sequence. -/
theorem iterKeys_map (fac : IconFactory) :
    ∀ st : List (String × JValue), (st.map Prod.fst).Nodup →
      (st.map Prod.fst).map (fun k => buildEntry fac (k, iterValue st k)) =
        st.map (buildEntry fac) := by
  intro st
  induction st with
  | nil => intro _; rfl
  | cons kv rest ih =>
      intro hnd
      obtain ⟨k, v⟩ := kv
      simp only [List.map_cons, List.nodup_cons] at hnd ⊢
      rw [iterValue_cons_self]
      have hstep : (rest.map Prod.fst).map
          (fun k' => buildEntry fac (k', iterValue ((k, v) :: rest) k')) =
          (rest.map Prod.fst).map (fun k' => buildEntry fac (k', iterValue rest k')) := by
        apply List.map_congr_left
        intro k' hk'
        rw [iterValue_cons_ne k k' v rest (by
          intro hkk
          exact hnd.1 (hkk ▸ hk'))]
      rw [hstep, ih hnd.2]

theorem loadIter_eq_load (fac : IconFactory) (st : List (String × JValue))
    (h : (st.map Prod.fst).Nodup) : loadIter fac st = load fac st := by
  rw [loadIter, load, foldl_append_map, foldl_append_map, List.nil_append, List.nil_append,
    iterKeys_map fac st h]

/-- C9: for every structure with pairwise distinct top-level keys (which a
Python dict guarantees), every icon family and every renderer kind, the
iterator-based `show` of newFunnyJsonExplorer.py emits exactly the lines of
the original `show` of FunnyJsonExplorer.py: the iterator walk plus
dictionary lookup builds the identical tree, and the per-call drawer is
stateless. -/
theorem C9_show_equivalence (dk : DrawerKind) (fac : IconFactory)
    (st : List (String × JValue)) (h : (st.map Prod.fst).Nodup) :
    newFjeShow dk fac st = fjeShow dk fac st := by
  rw [newFjeShow, fjeShow, loadIter_eq_load fac st h]

/-- C9 (witness): the equivalence evaluated on the fruit example with star
icons and the tree renderer. -/
theorem C9_show_equivalence_witness :
    (stFruit.map Prod.fst).Nodup ∧
      newFjeShow .tree starFactory stFruit = fjeShow .tree starFactory stFruit :=
  ⟨by decide, C9_show_equivalence .tree starFactory stFruit (by decide)⟩

theorem drawRectChildren_cons_ne (a : Component) (t : List Component) (w : Nat)
    (cp : String) (cur : Bool) (pn : String) (h : t ≠ []) :
    drawRectChildren (a :: t) w cp cur pn =
      drawRectangle a w cp false false ++ drawRectChildren t w cp false pn := by
  cases t with
  | nil => exact absurd rfl h
  | cons b t' => exact drawRectChildren_cons_cons a b t' w cp cur pn

theorem rectLine_expand (c : Component) (w : Nat) (p : String) (il ifr : Bool) :
    rectLine c w p il ifr =
      rectBeg c il ifr ++ (if il && c.isTerminalNode then fixPfx p else p) ++ "─ " ++
        c.nameOf ++ c.iconOf ++ " " ++
        hBar (if c.nameOf = "root" then w - c.nameOf.length - 3 - p.length
          else w - c.nameOf.length - 4 - p.length - c.iconOf.length) ++
        rectEnd c il ifr := by
  rw [rectLine, rectPfx_length]
  simp only [rectPfx, rectFill, rectBottomB]

/-- C10: the rectangle renderer keys its root treatment solely on the node
name being the string "root".  First conjunct: the emitted line of any node
pads with `width - len(name) - 3 - len(prefix)` dashes exactly when its
name is "root" and with `width - len(name) - 4 - len(prefix) - len(icon)`
otherwise.  Second conjunct: in the children loop every non-final child is
drawn with `is_last = False`, and the final child's flag is forced `True`
exactly when the parent is named "root"; any other parent passes the
running local flag through, which equals the incoming one only for a sole
child. -/
theorem C10_root_by_name :
    (∀ (c : Component) (w : Nat) (p : String) (il ifr : Bool),
      ∃ b e : String,
        (drawRectangle c w p il ifr).head? =
          some (b ++ (if il && c.isTerminalNode then fixPfx p else p) ++ "─ " ++
            c.nameOf ++ c.iconOf ++ " " ++
            hBar (if c.nameOf = "root" then w - c.nameOf.length - 3 - p.length
              else w - c.nameOf.length - 4 - p.length - c.iconOf.length) ++ e)) ∧
    (∀ (cs : List Component) (c : Component) (w : Nat) (cp : String) (cur : Bool)
        (pn : String),
      drawRectChildren (cs ++ [c]) w cp cur pn =
        (cs.flatMap fun x => drawRectangle x w cp false false) ++
          drawRectangle c w cp
            (if pn = "root" then true else if cs.isEmpty then cur else false) false) := by
  constructor
  · intro c w p il ifr
    refine ⟨rectBeg c il ifr, rectEnd c il ifr, ?_⟩
    rw [← rectLine_expand]
    cases c with
    | leaf n l i => rw [drawRectangle_leaf]; rfl
    | container n l i cs => rw [drawRectangle_container]; rfl
  · intro cs
    induction cs with
    | nil =>
        intro c w cp cur pn
        rw [List.nil_append, drawRectChildren_singleton]
        simp
    | cons x rest ih =>
        intro c w cp cur pn
        rw [List.cons_append,
          drawRectChildren_cons_ne x (rest ++ [c]) w cp cur pn (by simp),
          ih c w cp false pn]
        simp only [List.flatMap_cons, List.append_assoc, List.isEmpty_cons]
        have hflag : (if pn = "root" then true else if rest.isEmpty = true then false else false) =
            (if pn = "root" then true else if (false : Bool) = true then cur else false) := by
          split <;> simp
        rw [hflag]

/-- The three sequential single-character replacements of line 107 act as
one simultaneous character-wise substitution, because no replacement output
is a later replacement's input. -/
theorem fixPfx_eq_replSpec (s : String) :
    fixPfx s = String.mk (s.data.map replSpecChar) := by
  simp only [fixPfx, replaceChar, List.map_map]
  congr 1
  apply List.map_congr_left
  intro ch _
  by_cases h1 : ch = ' '
  · subst h1; decide
  · by_cases h2 : ch = '|'
    · subst h2; decide
    · by_cases h3 : ch = '├'
      · subst h3; decide
      · simp [replSpecChar, h1, h2, h3, Function.comp]

/-- C3: `line_beg`/`line_end` are `|`/`┤` by default, `┌`/`┐` when the node
is the very first drawn, and `└`/`┘` for a node flagged `is_last` that is a
Leaf or an empty Container; in that bottom-corner case the accumulated
prefix is printed with every space and `|` replaced by `─` and every `├`
replaced by `┴`, as one character-wise substitution. -/
theorem C3_corner_selection (c : Component) (w : Nat) (p : String) (il ifr : Bool) :
    ∃ mid : String,
      (drawRectangle c w p il ifr).head? =
        some ((if il && c.isTerminalNode then "└" else if ifr then "┌" else "|") ++
          ((if il && c.isTerminalNode then String.mk (p.data.map replSpecChar) else p) ++
            (mid ++ (if il && c.isTerminalNode then "┘" else if ifr then "┐" else "┤")))) := by
  refine ⟨"─ " ++ (c.nameOf ++ (c.iconOf ++ (" " ++ hBar (rectFill c w p.length)))), ?_⟩
  have hhead : (drawRectangle c w p il ifr).head? = some (rectLine c w p il ifr) := by
    cases c with
    | leaf n l i => rw [drawRectangle_leaf]; rfl
    | container n l i cs => rw [drawRectangle_container]; rfl
  rw [hhead, rectLine_expand]
  rw [fixPfx_eq_replSpec]
  simp only [rectBeg, rectEnd, rectBottomB, rectFill, String.append_assoc]

theorem drawTreeChildren_cons (c : Component) (rest : List Component) (pfx : String) :
    drawTreeChildren (c :: rest) pfx =
      drawTree c pfx rest.isEmpty ++ drawTreeChildren rest pfx := by
  simp [drawTreeChildren]

theorem drawTreeChildren_zip (pfx : String) :
    ∀ cs : List Component,
      (∀ x ∈ cs, ∀ (p : String) (il : Bool), ∃ ps : List (String × String),
        ps.length = (allNodes x).length ∧
        drawTree x p il = List.zipWith
          (fun pc nd => pc.1 ++ pc.2 ++ " " ++ nd.iconOf ++ " " ++ nd.nameOf)
          ps (allNodes x)) →
      ∃ ps : List (String × String),
        ps.length = (allNodesList cs).length ∧
        drawTreeChildren cs pfx = List.zipWith
          (fun pc nd => pc.1 ++ pc.2 ++ " " ++ nd.iconOf ++ " " ++ nd.nameOf)
          ps (allNodesList cs) := by
  intro cs
  induction cs with
  | nil => intro _; exact ⟨[], rfl, rfl⟩
  | cons x rest ih =>
      intro h
      obtain ⟨ps1, hl1, he1⟩ := h x (List.mem_cons_self x rest) pfx rest.isEmpty
      obtain ⟨ps2, hl2, he2⟩ := ih (fun y hy => h y (List.mem_cons_of_mem x hy))
      refine ⟨ps1 ++ ps2, ?_, ?_⟩
      · simp only [allNodesList, List.length_append, hl1, hl2]
      · rw [drawTreeChildren_cons, he1, he2,
          show allNodesList (x :: rest) = allNodes x ++ allNodesList rest from by
            simp [allNodesList],
          List.zipWith_append _ _ _ _ _ hl1]

/-- C4: for every tree, the tree renderer emits exactly one line per node
(root, every container and every leaf), aligned with the pre-order node
sequence root first, each line of the shape
`{prefix}{connector} {icon} {name}`. -/
theorem C4_tree_line_per_node : ∀ (c : Component) (pfx : String) (il : Bool),
    ∃ ps : List (String × String),
      ps.length = (allNodes c).length ∧
      drawTree c pfx il = List.zipWith
        (fun pc nd => pc.1 ++ pc.2 ++ " " ++ nd.iconOf ++ " " ++ nd.nameOf)
        ps (allNodes c) := by
  intro c
  induction c using componentInd with
  | hl n l i =>
      intro pfx il
      refine ⟨[(pfx, if il then "└─" else "├─")], rfl, ?_⟩
      simp [drawTree, allNodes, Component.iconOf, Component.nameOf]
  | hc n l i cs ih =>
      intro pfx il
      obtain ⟨ps2, hl2, he2⟩ :=
        drawTreeChildren_zip (pfx ++ (if il then "   " else "│  ")) cs ih
      refine ⟨(pfx, if il then "└─" else "├─") :: ps2, ?_, ?_⟩
      · simp only [allNodes, List.length_cons, hl2]
      · rw [show allNodes (.container n l i cs) =
            .container n l i cs :: allNodesList cs from by simp [allNodes],
          List.zipWith_cons_cons,
          show drawTree (.container n l i cs) pfx il =
            (pfx ++ (if il then "└─" else "├─") ++ " " ++ i ++ " " ++ n) ::
              drawTreeChildren cs (pfx ++ (if il then "   " else "│  ")) from by
            simp [drawTree, Component.iconOf, Component.nameOf],
          he2]
        simp [Component.iconOf, Component.nameOf]

/-- Flattened form of the `for i, child in enumerate(children)` loop of
`_draw_tree`: each child at index `i` (counting from `k`) is drawn with
`is_last = (i == len(children) - 1)`. -/
theorem drawTreeChildren_enumFrom (pfx : String) :
    ∀ (cs : List Component) (k : Nat),
      drawTreeChildren cs pfx =
        (List.enumFrom k cs).flatMap fun p =>
          drawTree p.2 pfx (p.1 == k + cs.length - 1) := by
  intro cs
  induction cs with
  | nil => intro k; rfl
  | cons x rest ih =>
      intro k
      rw [drawTreeChildren_cons, ih (k + 1),
        show List.enumFrom k (x :: rest) = (k, x) :: List.enumFrom (k + 1) rest from rfl,
        List.flatMap_cons]
      simp only [List.length_cons]
      have h1 : k + (rest.length + 1) - 1 = k + rest.length := by omega
      have h2 : k + 1 + rest.length - 1 = k + rest.length := by omega
      rw [h1, h2]
      have h3 : (k == k + rest.length) = rest.isEmpty := by
        cases rest with
        | nil => simp
        | cons y t =>
            simp only [List.isEmpty_cons, List.length_cons]
            exact beq_eq_false_iff_ne.mpr (by omega)
      rw [h3]

/-- C5: a node's tree-renderer line uses connector `└─` exactly when its
`is_last` flag is set, which holds for a child exactly when its index is
the last one of its parent (the root itself is drawn with `is_last = true`
by `TreeDrawer.draw`); and the prefix passed to a container's children is
its own prefix extended by three spaces when it was last, by `│` plus two
spaces otherwise. -/
theorem C5_tree_connectors :
    (∀ (fac : IconFactory) (st : List (String × JValue)),
      fjeShow .tree fac st = drawTree (load fac st) "" true) ∧
    (∀ (c : Component) (pfx : String) (il : Bool),
      (drawTree c pfx il).head? =
        some (pfx ++ (if il then "└─" else "├─") ++ " " ++ c.iconOf ++ " " ++ c.nameOf)) ∧
    (∀ (n : String) (l : Nat) (i : String) (cs : List Component) (pfx : String) (il : Bool),
      drawTree (.container n l i cs) pfx il =
        (pfx ++ (if il then "└─" else "├─") ++ " " ++ i ++ " " ++ n) ::
          (cs.enum.flatMap fun p =>
            drawTree p.2 (pfx ++ (if il then "   " else "│  ")) (p.1 == cs.length - 1))) := by
  refine ⟨fun fac st => rfl, ?_, ?_⟩
  · intro c pfx il
    cases c <;> simp [drawTree]
  · intro n l i cs pfx il
    rw [show drawTree (.container n l i cs) pfx il =
        (pfx ++ (if il then "└─" else "├─") ++ " " ++ i ++ " " ++ n) ::
          drawTreeChildren cs (pfx ++ (if il then "   " else "│  ")) from by
      simp [drawTree, Component.iconOf, Component.nameOf]]
    rw [show cs.enum = List.enumFrom 0 cs from rfl,
      drawTreeChildren_enumFrom (pfx ++ (if il then "   " else "│  ")) cs 0]
    simp only [Nat.zero_add]
